import Mathlib

/-!
Verification development for the Furhat balloon-task dialogue manager
(`src/main.ts`).  The TypeScript source is shallowly embedded: pure
functions become Lean functions, the xstate machine becomes an explicit
step function on a state type and a context record, and the JavaScript
regular-expression match in `extractPersonFromDecision` is embedded as a
backtracking matcher over lists of characters that follows the engine's
leftmost-first, greedy/lazy backtracking order.
-/

/-! ## Character classes (JavaScript regex semantics) -/

/-- JavaScript word character `\w`, i.e. `[A-Za-z0-9_]`. -/
def isWordChar (c : Char) : Bool :=
  (('a' ≤ c && c ≤ 'z') || ('A' ≤ c && c ≤ 'Z') || ('0' ≤ c && c ≤ '9') || c = '_')

/-- JavaScript whitespace class `\s` (also the set removed by
`String.prototype.trim`): whitespace plus line terminators. -/
def isJsSpace (c : Char) : Bool :=
  c = ' ' || c = '\t' || c = '\n' || c = '\r' || c = '\x0b' || c = '\x0c' ||
  c = '\u00A0' || c = '\u1680' ||
  ('\u2000' ≤ c && c ≤ '\u200A') ||
  c = '\u2028' || c = '\u2029' || c = '\u202F' || c = '\u205F' ||
  c = '\u3000' || c = '\uFEFF'

/-- Line terminators, which the regex metacharacter `.` does not match. -/
def isLineTerm (c : Char) : Bool :=
  c = '\n' || c = '\r' || c = '\u2028' || c = '\u2029'

/-- A character matched by the regex metacharacter `.` (no `s` flag). -/
def isDotChar (c : Char) : Bool := !isLineTerm c

/-! ## JavaScript `toLowerCase` / `trim` on character lists -/

/-- `String.prototype.trim`: drop leading and trailing whitespace. -/
def jsTrim (l : List Char) : List Char :=
  ((l.dropWhile (fun c => isJsSpace c)).reverse.dropWhile (fun c => isJsSpace c)).reverse

/-- The lowercased, trimmed character list of an utterance, as produced by
`utterance.toLowerCase().trim()` (ASCII case mapping). -/
def normChars (u : String) : List Char :=
  jsTrim (u.data.map Char.toLower)

/-! ## Backtracking matcher for `/\bi\s+want\s+(?:the\s+)?(.+?)\s+to\s+jump\b/`

Each combinator mirrors one piece of the regex; `Option.orElse` realises
the engine's chronological backtracking order (innermost choice point
retried first, greedy quantifiers try longer consumptions first, the lazy
capture tries shorter captures first). -/

/-- Length of the maximal run of whitespace at the head of the list. -/
def wsRun : List Char → Nat
  | [] => 0
  | c :: r => if isJsSpace c then wsRun r + 1 else 0

/-- Greedy `\s+` with backtracking: try to run the continuation after
consuming `n, n-1, …, 1` whitespace characters, in that order. -/
def tryWS1From {α : Type} (cont : List Char → Option α) (cs : List Char) : Nat → Option α
  | 0 => none
  | n + 1 => (cont (cs.drop (n + 1))).orElse (fun _ => tryWS1From cont cs n)

/-- `\s+` followed by `cont`: greedy, starting from the maximal run. -/
def matchWS1 {α : Type} (cont : List Char → Option α) (cs : List Char) : Option α :=
  tryWS1From cont cs (wsRun cs)

/-- A literal, followed by `cont`. -/
def matchLit {α : Type} (lit : List Char) (cont : List Char → Option α) (cs : List Char) :
    Option α :=
  if lit.isPrefixOf cs then cont (cs.drop lit.length) else none

/-- `\b` placed right after a word character: holds when the remaining
input is empty or starts with a non-word character. -/
def boundaryAfter (cs : List Char) : Bool :=
  match cs with
  | [] => true
  | c :: _ => !isWordChar c

/-- The tail `\s+to\s+jump\b` of the regex. -/
def matchToJump (cs : List Char) : Option Unit :=
  matchWS1 (matchLit ['t', 'o'] (matchWS1 (matchLit ['j', 'u', 'm', 'p'] (fun rest =>
    if boundaryAfter rest then some () else none)))) cs

/-- The lazy capture `(.+?)` followed by `\s+to\s+jump\b`: try the
shortest capture first, extending one character at a time; every captured
character must be matched by `.`.  Returns the captured characters. -/
def lazyDotPlus : List Char → Option (List Char)
  | [] => none
  | c :: rest =>
    if isDotChar c then
      match matchToJump rest with
      | some _ => some [c]
      | none => (lazyDotPlus rest).map (fun t => c :: t)
    else none

/-- `(?:the\s+)?(.+?)\s+to\s+jump\b`: the greedy optional group is tried
with the group present first, and only if that whole continuation fails is
the group skipped. -/
def matchAfterWant (cs : List Char) : Option (List Char) :=
  (matchLit ['t', 'h', 'e'] (matchWS1 lazyDotPlus) cs).orElse (fun _ => lazyDotPlus cs)

/-- What must match after the leading `i`: `\s+want\s+` then the rest. -/
def matchAtI (cs : List Char) : Option (List Char) :=
  matchWS1 (matchLit ['w', 'a', 'n', 't'] (matchWS1 matchAfterWant)) cs

/-- Leftmost-match scan.  `prevWord` records whether the character before
the current position is a word character (`false` at the start of the
input), which decides the leading `\b` (the next literal `i` is a word
character). -/
def scanMatch : Bool → List Char → Option (List Char)
  | _, [] => none
  | prevWord, c :: rest =>
    (if !prevWord && c = 'i' then matchAtI rest else none).orElse
      (fun _ => scanMatch (isWordChar c) rest)

/-- `extractPersonFromDecision` from `src/main.ts`: lowercase and trim the
utterance, match it against `/\bi\s+want\s+(?:the\s+)?(.+?)\s+to\s+jump\b/`,
and return the captured group trimmed; `none` when there is no match. -/
def extractPersonFromDecision (utterance : String) : Option String :=
  (scanMatch false (normChars utterance)).map (fun cap => String.mk (jsTrim cap))


/-! ## Guards and fixed texts of the dialogue machine -/

/-- `String.prototype.includes`: substring containment. -/
def containsSub (s pat : List Char) : Bool :=
  match s with
  | [] => pat.isPrefixOf ([] : List Char)
  | c :: t => pat.isPrefixOf (c :: t) || containsSub t pat

/-- The inline affirmative guard of `Manipulation.Listening`
(`utterance === "yes" || utterance === "yeah" || utterance === "yep" ||
utterance.includes("yes")` on the lowercased, trimmed utterance). -/
def manipSaidYes (u : String) : Bool :=
  let l := String.mk (normChars u)
  l == "yes" || l == "yeah" || l == "yep" || containsSub l.data ("yes".data)

/-- The inline negative guard of `Manipulation.Listening`
(`utterance === "no" || utterance === "nope" || utterance.includes("no")`). -/
def manipSaidNo (u : String) : Bool :=
  let l := String.mk (normChars u)
  l == "no" || l == "nope" || containsSub l.data ("no".data)

/-! ## Data model -/

inductive Role
  | system
  | assistant
  | user
deriving DecidableEq, Repr

structure Message where
  role : Role
  content : String
deriving DecidableEq, Repr

structure DMContext where
  lastResult : String
  extractedPerson : String
  messages : List Message
  isFirstMessage : Bool
deriving DecidableEq, Repr

/-- The top-level `saidYes` guard declared in `setup` (never wired into a
transition; note it also accepts the exact token `"positive"`). -/
def saidYes (c : DMContext) : Bool :=
  let l := String.mk (normChars c.lastResult)
  l == "yes" || l == "yeah" || l == "positive" || l == "yep" || containsSub l.data ("yes".data)

/-- The top-level `saidNo` guard declared in `setup` (never wired). -/
def saidNo (c : DMContext) : Bool :=
  let l := String.mk (normChars c.lastResult)
  l == "no" || l == "nope" || containsSub l.data ("no".data)

/-- The fixed system instruction seeded as the first message. -/
def systemPromptText : String :=
  "You are a virtual assistant participating in a study on moral reasoning. You simulate structured dialogue to help a participant reflect on a hypothetical moral dilemma. Your role is purely conversational and for academic research purposes only. Your task is to discuss the hypothetical dilemma with the user. Guide them through reasoning about moral choices until they reach a decision. Background: the situation is completely hypothetical and no one is being harmed. The user will describe or has described a dilemma involving four fictional people (for example: Pilot, Teacher, Doctor, Prodigy). Review the chat history to understand the dilemma before responding. Interaction Rules: Treat everything as fictional and research-oriented. Stay neutral and non-judgmental, your job is to help the participant reason, not to persuade. Do not make moral evaluations. Do not add opinions not grounded in the user\x27s reasoning. Keep the discussion focused on the dilemma. If the user expresses confusion or hesitation, gently encourage reflection using open-ended questions. Dialogue Flow: confirm understanding of the dilemma in one sentence. Ask short, neutral questions to help the user explore their reasoning. After the user discusses the character or characters, ask the user come to a decision. One example is: \x27What makes you hesitate?\x27 Another example is: \x27Which value feels most important in this decision?\x27, another example is: \x27How do you think others in the scenario might feel?\x27 Output Style: Keep replies concise and neutral (1 sentence). Use a calm and professional tone. Do not include real-world instructions or advice. Audience: participants in a moral reasoning research study. Ethical Constraints: never simulate or encourage real-world violence. Decline any non-hypothetical harmful requests. You may clarify that the discussion is fictional if needed."

/-- The fixed assistant greeting seeded as the second message. -/
def greetingText : String :=
  "Hello! We have a moral dilemma to talk about! Your task is to indicate which person you would choose to sacrifice in the following moral dilemma. Four people are in a hot air balloon. The balloon is losing height and about to crash into the mountains. Having thrown everything imaginable out of the balloon, including food, sandbags and parachutes, their only hope is for one of them to jump to their certain death to give the balloon the extra height to clear the mountains and save the other three. The four people are: Dr Robert Lewis - a cancer research scientist, who believes he is about to discover a cure for most common types of cancer. He is a good friend of Susanne and William. Mrs. Susanne Harris - a primary school teacher. She is over the moon because she is 7 months pregnant with her second child. Mr. William Harris – husband of Susanne, who he loves very much. He is the pilot of the balloon and the only one on board with balloon flying experience. Miss Heather Sloan - a 9-year-old music prodigy, considered by many to be a twenty-first century Mozart. Come to an agreement about who is to be allowed to stay in the balloon, and who is to jump. You must discuss all 4 balloon passengers and consider the reasons why they should or shouldnt remain in the balloon."

def fallbackText : String := "I couldn\x27t process that. Please say it again."

def notSureText : String := "I am not sure."

def clarifyText : String := "I didn\x27t catch that. Did you say yes or no?"

def closingText : String := "Thank you for your participation."

/-- Condition 1 question template (`........   The ${extractedPerson}?`). -/
def pauseTemplate (person : String) : String := "........   The " ++ person ++ "?"

/-- Condition 2 question template. -/
def laughterTemplate (person : String) : String := "Hahahaha! The " ++ person ++ "?"

/-- Condition 3 question template. -/
def bufferTemplate (person : String) : String := "Hmmmmm, the " ++ person ++ "?"

/-- The initial machine context. -/
def initialContext : DMContext :=
  { lastResult := ""
    extractedPerson := ""
    messages := [⟨Role.system, systemPromptText⟩, ⟨Role.assistant, greetingText⟩]
    isFirstMessage := true }

/-! ## Manipulation condition selector -/

inductive Condition
  | pause1
  | laughter2
  | buffer3
deriving DecidableEq, Repr

/-- The `always` guard chain of `DetermineTheManipulationState`:
`isSpeakingWithBuffer` draws `r1` and selects Condition 3 when `r1 < 1/3`;
otherwise `isSpeakingWithLaughter` draws `r2` and selects Condition 2 when
`r2 < 2/3`; otherwise Condition 1. -/
def DetermineTheManipulationState {K : Type} [LinearOrderedField K]
    [∀ a b : K, Decidable (a < b)] (r1 r2 : K) : Condition :=
  if r1 < 1 / 3 then Condition.buffer3
  else if r2 < 2 / 3 then Condition.laughter2
  else Condition.pause1

/-- `fetchChatCompletion`: every fetch/HTTP failure is caught inside the
function, which then returns a fixed error string instead of throwing; a
successful round trip returns the model response content. -/
def fetchChatCompletion (fetchOutcome : Option String) : String :=
  match fetchOutcome with
  | some content => content
  | none => "Error while connecting to the language model. Probably ssh tunnel is not active."

/-! ## The state machine

One constructor per atomic xstate node; `Ev` is the outcome of the state's
invocation (`ok`/`done out` for `onDone`, `err` for `onError`, and `draws`
for the random draws of the eventless `always` transition). -/

inductive MState
  | SetVoice
  | AttendUser
  | LoopSpeaking
  | LoopListening
  | LoopProcessingResponse
  | DetermineTheManipulationState
  | SpeakingWithPause_Condition1
  | SpeakingWithLaughter_Condition2
  | SpeakingWithBuffer_Condition3
  | ManipulationListening
  | Clarify
  | End
  | Done
deriving DecidableEq, Repr

inductive Ev
  | ok
  | done (out : String)
  | err
  | draws (r1 r2 : ℚ)
deriving DecidableEq, Repr

/-- One transition of the machine: from state `s` with context `c`, on
invocation outcome `e`, to the target state and updated context.  `none`
when the event does not apply to the state (or the state is final). -/
def step (s : MState) (c : DMContext) (e : Ev) : Option (MState × DMContext) :=
  match s, e with
  | .SetVoice, .ok => some (.AttendUser, c)
  | .SetVoice, .err => some (.LoopSpeaking, c)
  | .AttendUser, .ok => some (.LoopSpeaking, c)
  | .AttendUser, .err => some (.LoopSpeaking, c)
  | .LoopSpeaking, .ok => some (.LoopListening, { c with isFirstMessage := false })
  | .LoopSpeaking, .err => some (.LoopListening, c)
  | .LoopListening, .done u =>
    (match extractPersonFromDecision u with
     | some p => some (.DetermineTheManipulationState,
        { c with lastResult := u, extractedPerson := p,
                 messages := c.messages ++ [⟨Role.user, u⟩] })
     | none => some (.LoopProcessingResponse,
        { c with lastResult := u, messages := c.messages ++ [⟨Role.user, u⟩] }))
  | .LoopListening, .err => some (.LoopSpeaking, c)
  | .LoopProcessingResponse, .done out =>
      some (.LoopSpeaking, { c with messages := c.messages ++ [⟨Role.assistant, out⟩] })
  | .LoopProcessingResponse, .err =>
      some (.LoopSpeaking, { c with messages := c.messages ++ [⟨Role.assistant, fallbackText⟩] })
  | .DetermineTheManipulationState, .draws r1 r2 =>
    (match DetermineTheManipulationState r1 r2 with
     | Condition.buffer3 => some (.SpeakingWithBuffer_Condition3, c)
     | Condition.laughter2 => some (.SpeakingWithLaughter_Condition2, c)
     | Condition.pause1 => some (.SpeakingWithPause_Condition1, c))
  | .SpeakingWithPause_Condition1, .ok => some (.ManipulationListening, c)
  | .SpeakingWithPause_Condition1, .err => some (.ManipulationListening, c)
  | .SpeakingWithLaughter_Condition2, .ok => some (.ManipulationListening, c)
  | .SpeakingWithLaughter_Condition2, .err => some (.ManipulationListening, c)
  | .SpeakingWithBuffer_Condition3, .ok => some (.ManipulationListening, c)
  | .SpeakingWithBuffer_Condition3, .err => some (.ManipulationListening, c)
  | .ManipulationListening, .done u =>
    if manipSaidYes u then some (.End, { c with lastResult := u })
    else if manipSaidNo u then
      some (.LoopProcessingResponse,
        { c with lastResult := u, messages := c.messages ++ [⟨Role.user, notSureText⟩] })
    else some (.Clarify, { c with lastResult := u })
  | .ManipulationListening, .err => some (.DetermineTheManipulationState, c)
  | .Clarify, .ok => some (.ManipulationListening, c)
  | .Clarify, .err => some (.ManipulationListening, c)
  | .End, .ok =>
      some (.Done, { c with messages := c.messages ++ [⟨Role.assistant, closingText⟩] })
  | .End, .err => some (.Done, c)
  | _, _ => none

/-- The input wired into the `fhSpeak` invocation of each speaking state
(`none` for states that do not invoke `fhSpeak`): the text to speak and
the `isFirstMessage` flag. -/
def speakInput (s : MState) (c : DMContext) : Option (String × Bool) :=
  match s with
  | .LoopSpeaking =>
    (match c.messages.getLast? with
     | some m => some (m.content, c.isFirstMessage)
     | none => none)
  | .SpeakingWithPause_Condition1 => some (pauseTemplate c.extractedPerson, false)
  | .SpeakingWithLaughter_Condition2 => some (laughterTemplate c.extractedPerson, false)
  | .SpeakingWithBuffer_Condition3 => some (bufferTemplate c.extractedPerson, false)
  | .Clarify => some (clarifyText, false)
  | .End => some (closingText, false)
  | _ => none

/-- The input wired into the `chatCompletion` invocation: the whole
message history, sent from `ProcessingResponse` only. -/
def chatCompletionInput (s : MState) (c : DMContext) : Option (List Message) :=
  match s with
  | .LoopProcessingResponse => some c.messages
  | _ => none

/-- `Done` is the machine's only final node. -/
def isFinal (s : MState) : Bool := s = MState.Done

/-- Reachability: `Reach s c t` holds when the machine can be in state `s`
with context `c` after the trace `t` of (source state, invocation outcome)
pairs, starting from `SetupFurhat.SetVoice` with the seeded context. -/
inductive Reach : MState → DMContext → List (MState × Ev) → Prop
  | init : Reach MState.SetVoice initialContext []
  | next {s c t e s' c'} : Reach s c t → step s c e = some (s', c') →
      Reach s' c' (t ++ [(s, e)])

/-! ## Declarative characterisation of the decision regex

`RegexMatchesWith l subj` says that the lowercased, trimmed utterance `l`
decomposes as an occurrence of `\bi\s+want\s+(?:the\s+)?(.+?)\s+to\s+jump\b`
whose capture group is `subj`. -/

/-- A nonempty run of `\s` characters. -/
def WS1 (w : List Char) : Prop := w ≠ [] ∧ ∀ c ∈ w, isJsSpace c = true

/-- A nonempty string of characters matched by `.` (the capture `(.+?)`). -/
def DotStr (s : List Char) : Prop := s ≠ [] ∧ ∀ c ∈ s, isDotChar c = true

/-- The optional group `(?:the\s+)?`: absent, or `the` plus whitespace. -/
def TheOpt (t : List Char) : Prop :=
  t = [] ∨ ∃ w, WS1 w ∧ t = ['t', 'h', 'e'] ++ w

/-- The `\b` before the leading `i`: start of input or a non-word character. -/
def BoundaryBefore (pre : List Char) : Prop :=
  pre = [] ∨ ∃ p c, pre = p ++ [c] ∧ isWordChar c = false

/-- The `\b` after `jump`: end of input or a non-word character. -/
def BoundaryAfterP (post : List Char) : Prop :=
  post = [] ∨ ∃ c p, post = c :: p ∧ isWordChar c = false

/-- Boundary condition threaded through the leftmost scan: the position
is the start of the input (and then the scan state must say there is no
preceding word character) or is preceded by a non-word character. -/
def PreBoundary (pw : Bool) (pre : List Char) : Prop :=
  (pre = [] ∧ pw = false) ∨ ∃ p c, pre = p ++ [c] ∧ isWordChar c = false

/-- `l` matches the decision pattern with capture group `subj`. -/
def RegexMatchesWith (l subj : List Char) : Prop :=
  ∃ pre w1 w2 theo w3 w4 post,
    l = pre ++ ['i'] ++ w1 ++ ['w', 'a', 'n', 't'] ++ w2 ++ theo ++ subj ++ w3 ++
        ['t', 'o'] ++ w4 ++ ['j', 'u', 'm', 'p'] ++ post ∧
    BoundaryBefore pre ∧ WS1 w1 ∧ WS1 w2 ∧ TheOpt theo ∧ DotStr subj ∧
    WS1 w3 ∧ WS1 w4 ∧ BoundaryAfterP post

/-- `l` matches the decision pattern (with some capture). -/
def RegexMatches (l : List Char) : Prop := ∃ subj, RegexMatchesWith l subj

/-! ## Spec-side predicates for the confirmation token recogniser -/

/-- `pat` occurs as a contiguous substring of `l`. -/
def OccursIn (pat l : List Char) : Prop := ∃ pre post, l = pre ++ pat ++ post

/-- The affirmative class actually implemented inside
`Manipulation.Listening`: exact `yes`/`yeah`/`yep`, or any occurrence of
the substring `yes`. -/
def ExactOrHasYes (l : List Char) : Prop :=
  l = "yes".data ∨ l = "yeah".data ∨ l = "yep".data ∨ OccursIn ("yes".data) l

/-- The affirmative class asserted by the claim (which also lists the
exact token `positive`, present only in the unwired top-level guard). -/
def ClaimAffirmative (l : List Char) : Prop :=
  l = "yes".data ∨ l = "yeah".data ∨ l = "positive".data ∨ l = "yep".data ∨
  OccursIn ("yes".data) l

/-- The negative class: exact `no`/`nope`, or any occurrence of `no`. -/
def ExactOrHasNo (l : List Char) : Prop :=
  l = "no".data ∨ l = "nope".data ∨ OccursIn ("no".data) l

/-! # Supporting lemmas -/

theorem isPrefixOf_eq_true_iff {l s : List Char} :
    l.isPrefixOf s = true ↔ ∃ t, s = l ++ t := by
  induction l generalizing s with
  | nil => simp [List.isPrefixOf]
  | cons a l ih =>
    cases s with
    | nil => simp [List.isPrefixOf]
    | cons b s =>
      simp only [List.isPrefixOf, Bool.and_eq_true, beq_iff_eq, ih, List.cons_append,
        List.cons.injEq]
      constructor
      · rintro ⟨rfl, t, rfl⟩
        exact ⟨t, rfl, rfl⟩
      · rintro ⟨t, rfl, rfl⟩
        exact ⟨rfl, t, rfl⟩

theorem orElse_eq_some_iff {α : Type} (x : Option α) (f : Unit → Option α) (a : α) :
    x.orElse f = some a ↔ x = some a ∨ (x = none ∧ f () = some a) := by
  cases x <;> simp [Option.orElse]

theorem orElse_isSome_iff {α : Type} (x : Option α) (f : Unit → Option α) :
    (x.orElse f).isSome = true ↔ x.isSome = true ∨ (f ()).isSome = true := by
  cases x <;> simp [Option.orElse]

theorem mem_take_wsRun_isJsSpace (cs : List Char) :
    ∀ i, i ≤ wsRun cs → ∀ c ∈ cs.take i, isJsSpace c = true := by
  induction cs with
  | nil => intro i hi c hc; simp at hc
  | cons a t ih =>
    intro i hi c hc
    by_cases ha : isJsSpace a = true
    · cases i with
      | zero => simp at hc
      | succ j =>
        simp only [List.take_succ_cons, List.mem_cons] at hc
        rcases hc with rfl | hc
        · exact ha
        · exact ih j (by simpa [wsRun, ha] using hi) c hc
    · have h0 : wsRun (a :: t) = 0 := by simp [wsRun, ha]
      rw [h0] at hi
      interval_cases i
      simp at hc

theorem wsRun_ge_of_spaces (w rest : List Char) (hw : ∀ c ∈ w, isJsSpace c = true) :
    w.length ≤ wsRun (w ++ rest) := by
  induction w with
  | nil => simp
  | cons a t ih =>
    have ha : isJsSpace a = true := hw a (by simp)
    have ht := ih (fun c hc => hw c (by simp [hc]))
    have hws : wsRun (a :: t ++ rest) = wsRun (t ++ rest) + 1 := by
      simp [wsRun, ha]
    rw [hws, List.length_cons]
    omega

theorem containsSub_iff_occursIn (s pat : List Char) :
    containsSub s pat = true ↔ OccursIn pat s := by
  induction s with
  | nil =>
    cases pat with
    | nil =>
      constructor
      · intro _
        exact ⟨[], [], rfl⟩
      · intro _
        rfl
    | cons c t =>
      constructor
      · intro h
        simp [containsSub, List.isPrefixOf] at h
      · rintro ⟨pre, post, hp⟩
        have hlen := congrArg List.length hp
        simp only [List.length_nil, List.length_append, List.length_cons] at hlen
        omega
  | cons a t ih =>
    simp only [containsSub, Bool.or_eq_true, ih]
    constructor
    · rintro (h | h)
      · rcases isPrefixOf_eq_true_iff.mp h with ⟨r, hr⟩
        exact ⟨[], r, by simpa using hr⟩
      · rcases h with ⟨pre, post, hp⟩
        exact ⟨a :: pre, post, by simp [hp]⟩
    · rintro ⟨pre, post, hp⟩
      cases pre with
      | nil =>
        left
        exact isPrefixOf_eq_true_iff.mpr ⟨post, by simpa using hp⟩
      | cons x pre =>
        right
        simp only [List.cons_append, List.cons.injEq] at hp
        exact ⟨pre, post, hp.2⟩

theorem boundaryAfter_iff (post : List Char) :
    boundaryAfter post = true ↔ BoundaryAfterP post := by
  cases post with
  | nil => simp [boundaryAfter, BoundaryAfterP]
  | cons c p =>
    simp only [boundaryAfter, Bool.not_eq_true', BoundaryAfterP, List.cons.injEq]
    constructor
    · intro h
      right
      exact ⟨c, p, ⟨rfl, rfl⟩, h⟩
    · rintro (h | ⟨c', p', ⟨rfl, rfl⟩, h⟩)
      · cases h
      · exact h

theorem tryWS1From_sound {α : Type} (cont : List Char → Option α) (cs : List Char) :
    ∀ n a, tryWS1From cont cs n = some a → ∃ i, 1 ≤ i ∧ i ≤ n ∧ cont (cs.drop i) = some a := by
  intro n
  induction n with
  | zero =>
    intro a h
    simp [tryWS1From] at h
  | succ n ih =>
    intro a h
    simp only [tryWS1From] at h
    rcases (orElse_eq_some_iff _ _ _).mp h with h1 | ⟨-, h1⟩
    · exact ⟨n + 1, by omega, le_refl _, h1⟩
    · rcases ih a h1 with ⟨i, hi1, hi2, hi3⟩
      exact ⟨i, hi1, by omega, hi3⟩

theorem tryWS1From_complete {α : Type} (cont : List Char → Option α) (cs : List Char) :
    ∀ n i, 1 ≤ i → i ≤ n → (cont (cs.drop i)).isSome = true →
      (tryWS1From cont cs n).isSome = true := by
  intro n
  induction n with
  | zero =>
    intro i h1 h2 _
    omega
  | succ n ih =>
    intro i h1 h2 hc
    simp only [tryWS1From]
    rw [orElse_isSome_iff]
    by_cases hin : i = n + 1
    · left
      rw [← hin]
      exact hc
    · right
      exact ih i h1 (by omega) hc

theorem matchWS1_sound {α : Type} (cont : List Char → Option α) (cs : List Char) (a : α)
    (h : matchWS1 cont cs = some a) :
    ∃ w rest, cs = w ++ rest ∧ WS1 w ∧ cont rest = some a := by
  rcases tryWS1From_sound cont cs _ a h with ⟨i, h1, h2, h3⟩
  refine ⟨cs.take i, cs.drop i, (List.take_append_drop i cs).symm, ⟨?_, ?_⟩, h3⟩
  · intro hemp
    rcases List.take_eq_nil_iff.mp hemp with h0 | rfl
    · omega
    · simp [wsRun] at h2
      omega
  · exact mem_take_wsRun_isJsSpace cs i h2

theorem matchWS1_complete {α : Type} (cont : List Char → Option α) (w rest : List Char)
    (hw : WS1 w) (hc : (cont rest).isSome = true) :
    (matchWS1 cont (w ++ rest)).isSome = true := by
  apply tryWS1From_complete cont (w ++ rest) (wsRun (w ++ rest)) w.length
  · rcases hw with ⟨hne, -⟩
    cases w with
    | nil => exact absurd rfl hne
    | cons a t => simp
  · exact wsRun_ge_of_spaces w rest hw.2
  · rw [List.drop_left]
    exact hc

theorem matchLit_eq_some_iff {α : Type} (lit : List Char) (cont : List Char → Option α)
    (cs : List Char) (a : α) :
    matchLit lit cont cs = some a ↔ ∃ rest, cs = lit ++ rest ∧ cont rest = some a := by
  unfold matchLit
  by_cases h : lit.isPrefixOf cs = true
  · rcases isPrefixOf_eq_true_iff.mp h with ⟨t, rfl⟩
    rw [if_pos h, List.drop_left]
    constructor
    · intro hc
      exact ⟨t, rfl, hc⟩
    · rintro ⟨rest, heq, hc⟩
      have ht : t = rest := List.append_cancel_left heq
      rw [ht]
      exact hc
  · rw [if_neg h]
    constructor
    · intro hc
      cases hc
    · rintro ⟨rest, rfl, hc⟩
      exact absurd (isPrefixOf_eq_true_iff.mpr ⟨rest, rfl⟩) h

theorem matchLit_complete {α : Type} (lit : List Char) (cont : List Char → Option α)
    (rest : List Char) (hc : (cont rest).isSome = true) :
    (matchLit lit cont (lit ++ rest)).isSome = true := by
  unfold matchLit
  rw [if_pos (isPrefixOf_eq_true_iff.mpr ⟨rest, rfl⟩), List.drop_left]
  exact hc

theorem matchToJump_sound (cs : List Char) (h : matchToJump cs = some ()) :
    ∃ w3 w4 post, cs = w3 ++ ['t', 'o'] ++ w4 ++ ['j', 'u', 'm', 'p'] ++ post ∧
      WS1 w3 ∧ WS1 w4 ∧ BoundaryAfterP post := by
  unfold matchToJump at h
  rcases matchWS1_sound _ _ _ h with ⟨w3, r1, rfl, hw3, h1⟩
  rcases (matchLit_eq_some_iff _ _ _ _).mp h1 with ⟨r2, rfl, h2⟩
  rcases matchWS1_sound _ _ _ h2 with ⟨w4, r3, rfl, hw4, h3⟩
  rcases (matchLit_eq_some_iff _ _ _ _).mp h3 with ⟨post, rfl, h4⟩
  by_cases hb : boundaryAfter post = true
  · exact ⟨w3, w4, post, by simp [List.append_assoc], hw3, hw4, (boundaryAfter_iff post).mp hb⟩
  · rw [if_neg hb] at h4
    cases h4

theorem matchToJump_complete (w3 w4 post : List Char) (hw3 : WS1 w3) (hw4 : WS1 w4)
    (hb : BoundaryAfterP post) :
    (matchToJump (w3 ++ ['t', 'o'] ++ w4 ++ ['j', 'u', 'm', 'p'] ++ post)).isSome = true := by
  have hassoc : w3 ++ ['t', 'o'] ++ w4 ++ ['j', 'u', 'm', 'p'] ++ post =
      w3 ++ (['t', 'o'] ++ (w4 ++ (['j', 'u', 'm', 'p'] ++ post))) := by
    simp [List.append_assoc]
  unfold matchToJump
  rw [hassoc]
  apply matchWS1_complete _ _ _ hw3
  apply matchLit_complete
  apply matchWS1_complete _ _ _ hw4
  apply matchLit_complete
  rw [if_pos ((boundaryAfter_iff post).mpr hb)]
  rfl

theorem lazyDotPlus_sound :
    ∀ cs cap : List Char, lazyDotPlus cs = some cap →
      ∃ rest, cs = cap ++ rest ∧ DotStr cap ∧ matchToJump rest = some () := by
  intro cs
  induction cs with
  | nil =>
    intro cap h
    simp [lazyDotPlus] at h
  | cons c rest ih =>
    intro cap h
    simp only [lazyDotPlus] at h
    by_cases hd : isDotChar c = true
    · rw [if_pos hd] at h
      cases hm : matchToJump rest with
      | some u =>
        cases u
        rw [hm] at h
        simp only [Option.some.injEq] at h
        refine ⟨rest, by simp [← h], ⟨by simp [← h], ?_⟩, hm⟩
        rw [← h]
        intro x hx
        rw [List.mem_singleton.mp hx]
        exact hd
      | none =>
        rw [hm] at h
        simp only [Option.map_eq_some'] at h
        rcases h with ⟨cap', hcap', rfl⟩
        rcases ih cap' hcap' with ⟨rest', rfl, hds, hm'⟩
        refine ⟨rest', by simp, ⟨by simp, ?_⟩, hm'⟩
        intro x hx
        rcases List.mem_cons.mp hx with rfl | hx
        · exact hd
        · exact hds.2 x hx
    · rw [if_neg hd] at h
      cases h

theorem lazyDotPlus_complete :
    ∀ subj rest : List Char, DotStr subj → matchToJump rest = some () →
      (lazyDotPlus (subj ++ rest)).isSome = true := by
  intro subj
  induction subj with
  | nil =>
    intro rest hd _
    exact absurd rfl hd.1
  | cons c subj ih =>
    intro rest hd hm
    have hdc : isDotChar c = true := hd.2 c (by simp)
    rw [List.cons_append]
    simp only [lazyDotPlus, if_pos hdc]
    cases hm2 : matchToJump (subj ++ rest) with
    | some u => simp
    | none =>
      cases subj with
      | nil =>
        rw [List.nil_append] at hm2
        rw [hm] at hm2
        cases hm2
      | cons d subj' =>
        have hrec := ih rest ⟨by simp, fun x hx => hd.2 x (by simp [hx])⟩ hm
        cases hval : lazyDotPlus (d :: subj' ++ rest) with
        | none =>
          rw [hval] at hrec
          cases hrec
        | some v =>
          rfl

theorem matchAfterWant_sound (cs cap : List Char) (h : matchAfterWant cs = some cap) :
    ∃ theo rest, cs = theo ++ cap ++ rest ∧ TheOpt theo ∧ DotStr cap ∧
      matchToJump rest = some () := by
  unfold matchAfterWant at h
  rcases (orElse_eq_some_iff _ _ _).mp h with h1 | ⟨-, h1⟩
  · rcases (matchLit_eq_some_iff _ _ _ _).mp h1 with ⟨r1, rfl, h2⟩
    rcases matchWS1_sound _ _ _ h2 with ⟨w, r2, rfl, hw, h3⟩
    rcases lazyDotPlus_sound _ _ h3 with ⟨rest, rfl, hds, hm⟩
    exact ⟨['t', 'h', 'e'] ++ w, rest, by simp [List.append_assoc], Or.inr ⟨w, hw, rfl⟩,
      hds, hm⟩
  · rcases lazyDotPlus_sound _ _ h1 with ⟨rest, rfl, hds, hm⟩
    exact ⟨[], rest, by simp, Or.inl rfl, hds, hm⟩

theorem matchAfterWant_complete (theo subj rest : List Char) (hth : TheOpt theo)
    (hds : DotStr subj) (hm : matchToJump rest = some ()) :
    (matchAfterWant (theo ++ subj ++ rest)).isSome = true := by
  unfold matchAfterWant
  rw [orElse_isSome_iff]
  rcases hth with rfl | ⟨w, hw, rfl⟩
  · right
    rw [List.nil_append]
    exact lazyDotPlus_complete subj rest hds hm
  · left
    have hassoc : ['t', 'h', 'e'] ++ w ++ subj ++ rest =
        ['t', 'h', 'e'] ++ (w ++ (subj ++ rest)) := by simp [List.append_assoc]
    rw [hassoc]
    apply matchLit_complete
    exact matchWS1_complete _ _ _ hw (lazyDotPlus_complete subj rest hds hm)

theorem matchAtI_sound (cs cap : List Char) (h : matchAtI cs = some cap) :
    ∃ w1 w2 theo rest, cs = w1 ++ ['w', 'a', 'n', 't'] ++ w2 ++ theo ++ cap ++ rest ∧
      WS1 w1 ∧ WS1 w2 ∧ TheOpt theo ∧ DotStr cap ∧ matchToJump rest = some () := by
  unfold matchAtI at h
  rcases matchWS1_sound _ _ _ h with ⟨w1, r1, rfl, hw1, h1⟩
  rcases (matchLit_eq_some_iff _ _ _ _).mp h1 with ⟨r2, rfl, h2⟩
  rcases matchWS1_sound _ _ _ h2 with ⟨w2, r3, rfl, hw2, h3⟩
  rcases matchAfterWant_sound _ _ h3 with ⟨theo, rest, rfl, hth, hds, hm⟩
  exact ⟨w1, w2, theo, rest, by simp [List.append_assoc], hw1, hw2, hth, hds, hm⟩

theorem matchAtI_complete (w1 w2 theo subj rest : List Char) (hw1 : WS1 w1) (hw2 : WS1 w2)
    (hth : TheOpt theo) (hds : DotStr subj) (hm : matchToJump rest = some ()) :
    (matchAtI (w1 ++ ['w', 'a', 'n', 't'] ++ w2 ++ theo ++ subj ++ rest)).isSome = true := by
  unfold matchAtI
  have hassoc : w1 ++ ['w', 'a', 'n', 't'] ++ w2 ++ theo ++ subj ++ rest =
      w1 ++ (['w', 'a', 'n', 't'] ++ (w2 ++ (theo ++ subj ++ rest))) := by
    simp [List.append_assoc]
  rw [hassoc]
  apply matchWS1_complete _ _ _ hw1
  apply matchLit_complete
  exact matchWS1_complete _ _ _ hw2 (matchAfterWant_complete theo subj rest hth hds hm)

theorem scanMatch_sound :
    ∀ (cs : List Char) (pw : Bool) (cap : List Char), scanMatch pw cs = some cap →
      ∃ pre rest, cs = pre ++ ['i'] ++ rest ∧ PreBoundary pw pre ∧ matchAtI rest = some cap := by
  intro cs
  induction cs with
  | nil =>
    intro pw cap h
    simp [scanMatch] at h
  | cons c rest ih =>
    intro pw cap h
    simp only [scanMatch] at h
    rcases (orElse_eq_some_iff _ _ _).mp h with h1 | ⟨-, h1⟩
    · by_cases hg : (!pw && c = 'i') = true
      · rw [if_pos hg] at h1
        have hg' : pw = false ∧ c = 'i' := by simpa using hg
        refine ⟨[], rest, ?_, Or.inl ⟨rfl, hg'.1⟩, h1⟩
        simp [hg'.2]
      · rw [if_neg hg] at h1
        cases h1
    · rcases ih (isWordChar c) cap h1 with ⟨pre, rest', rfl, hb, hm⟩
      refine ⟨c :: pre, rest', by simp, ?_, hm⟩
      rcases hb with ⟨rfl, hw⟩ | ⟨p, d, rfl, hd⟩
      · exact Or.inr ⟨[], c, rfl, hw⟩
      · exact Or.inr ⟨c :: p, d, by simp, hd⟩

theorem scanMatch_complete :
    ∀ (pre : List Char) (pw : Bool) (rest : List Char), PreBoundary pw pre →
      (matchAtI rest).isSome = true →
      (scanMatch pw (pre ++ ['i'] ++ rest)).isSome = true := by
  intro pre
  induction pre with
  | nil =>
    intro pw rest hb hm
    have hpw : pw = false := by
      rcases hb with ⟨-, h⟩ | ⟨p, c, hp, -⟩
      · exact h
      · exact absurd (congrArg List.length hp) (by simp)
    subst hpw
    rw [List.nil_append, List.cons_append]
    simp only [scanMatch]
    rw [orElse_isSome_iff]
    left
    rw [if_pos (by decide)]
    exact hm
  | cons c pre ih =>
    intro pw rest hb hm
    have hb' : PreBoundary (isWordChar c) pre := by
      rcases hb with ⟨hp, -⟩ | ⟨p, d, hp, hd⟩
      · exact absurd hp (by simp)
      · cases p with
        | nil =>
          simp only [List.nil_append, List.cons.injEq] at hp
          exact Or.inl ⟨hp.2, by rw [hp.1]; exact hd⟩
        | cons x p' =>
          simp only [List.cons_append, List.cons.injEq] at hp
          exact Or.inr ⟨p', d, hp.2, hd⟩
    rw [List.cons_append, List.cons_append]
    simp only [scanMatch]
    rw [orElse_isSome_iff]
    right
    have := ih (isWordChar c) rest hb' hm
    simpa using this

theorem matchToJump_eq_some_of_isSome {cs : List Char} (h : (matchToJump cs).isSome = true) :
    matchToJump cs = some () := by
  cases hm : matchToJump cs with
  | none =>
    rw [hm] at h
    cases h
  | some u =>
    cases u
    rfl

theorem scanMatch_some_matches (l cap : List Char) (h : scanMatch false l = some cap) :
    RegexMatchesWith l cap := by
  rcases scanMatch_sound l false cap h with ⟨pre, rest, rfl, hb, hm⟩
  rcases matchAtI_sound rest cap hm with ⟨w1, w2, theo, rest2, rfl, hw1, hw2, hth, hds, hm2⟩
  rcases matchToJump_sound rest2 hm2 with ⟨w3, w4, post, rfl, hw3, hw4, hbp⟩
  refine ⟨pre, w1, w2, theo, w3, w4, post, by simp [List.append_assoc], ?_, hw1, hw2, hth,
    hds, hw3, hw4, hbp⟩
  rcases hb with ⟨rfl, -⟩ | ⟨p, c, rfl, hc⟩
  · exact Or.inl rfl
  · exact Or.inr ⟨p, c, rfl, hc⟩

theorem scanMatch_isSome_of_matches (l subj : List Char) (h : RegexMatchesWith l subj) :
    (scanMatch false l).isSome = true := by
  rcases h with ⟨pre, w1, w2, theo, w3, w4, post, rfl, hb, hw1, hw2, hth, hds, hw3, hw4, hbp⟩
  have hpb : PreBoundary false pre := by
    rcases hb with rfl | ⟨p, c, rfl, hc⟩
    · exact Or.inl ⟨rfl, rfl⟩
    · exact Or.inr ⟨p, c, rfl, hc⟩
  have htj : matchToJump (w3 ++ ['t', 'o'] ++ w4 ++ ['j', 'u', 'm', 'p'] ++ post) = some () :=
    matchToJump_eq_some_of_isSome (matchToJump_complete w3 w4 post hw3 hw4 hbp)
  have hAtI : (matchAtI (w1 ++ ['w', 'a', 'n', 't'] ++ w2 ++ theo ++ subj ++
      (w3 ++ ['t', 'o'] ++ w4 ++ ['j', 'u', 'm', 'p'] ++ post))).isSome = true :=
    matchAtI_complete w1 w2 theo subj _ hw1 hw2 hth hds htj
  have hassoc : pre ++ ['i'] ++ w1 ++ ['w', 'a', 'n', 't'] ++ w2 ++ theo ++ subj ++ w3 ++
      ['t', 'o'] ++ w4 ++ ['j', 'u', 'm', 'p'] ++ post =
      pre ++ ['i'] ++ (w1 ++ ['w', 'a', 'n', 't'] ++ w2 ++ theo ++ subj ++
        (w3 ++ ['t', 'o'] ++ w4 ++ ['j', 'u', 'm', 'p'] ++ post)) := by
    simp [List.append_assoc]
  rw [hassoc]
  exact scanMatch_complete pre false _ hpb hAtI

/-! # Claim theorems -/

/-- C1: an utterance whose lowercased, trimmed form matches the
word-boundary-anchored pattern `i want (the)? <subject> to jump` makes
`extractPersonFromDecision` return a captured subject trimmed, and a
non-matching utterance makes it return `none` (never an error). -/
theorem c1_decision_extractor (u : String) :
    (extractPersonFromDecision u = none ↔ ¬ RegexMatches (normChars u)) ∧
    ∀ p, extractPersonFromDecision u = some p →
      ∃ subj, RegexMatchesWith (normChars u) subj ∧ p = String.mk (jsTrim subj) := by
  constructor
  · constructor
    · intro h hm
      rcases hm with ⟨subj, hsubj⟩
      have hs := scanMatch_isSome_of_matches _ _ hsubj
      unfold extractPersonFromDecision at h
      rw [Option.map_eq_none'] at h
      rw [h] at hs
      cases hs
    · intro h
      unfold extractPersonFromDecision
      rw [Option.map_eq_none']
      cases hs : scanMatch false (normChars u) with
      | none => rfl
      | some cap => exact absurd ⟨cap, scanMatch_some_matches _ _ hs⟩ h
  · intro p hp
    unfold extractPersonFromDecision at hp
    rcases Option.map_eq_some'.mp hp with ⟨cap, hcap, rfl⟩
    exact ⟨cap, scanMatch_some_matches _ _ hcap, rfl⟩

/-- Witness for C1 at the utterance `I want the Teacher to jump`. -/
theorem c1_decision_extractor_witness :
    extractPersonFromDecision "I want the Teacher to jump" = some "teacher" ∧
    ∃ subj, RegexMatchesWith (normChars "I want the Teacher to jump") subj ∧
      "teacher" = String.mk (jsTrim subj) :=
  ⟨by decide, (c1_decision_extractor "I want the Teacher to jump").2 "teacher" (by decide)⟩

/-- C5: a failed completion invocation in `ProcessingResponse` appends the
fixed fallback assistant message and moves to `Speaking`, a non-final
state; the failure goes no further. -/
theorem c5_completion_failure (c : DMContext) :
    step MState.LoopProcessingResponse c Ev.err =
      some (MState.LoopSpeaking,
        { c with messages := c.messages ++ [⟨Role.assistant, fallbackText⟩] }) ∧
    isFinal MState.LoopSpeaking = false :=
  ⟨rfl, rfl⟩

/-- C6: a negative confirmation in `Manipulation.Listening` appends the
fixed user message `I am not sure.` and jumps straight to
`ConversationLoop.ProcessingResponse`, whose completion invocation is fed
the whole updated history. -/
theorem c6_negative_branch (c : DMContext) (u : String) (hy : manipSaidYes u = false)
    (hn : manipSaidNo u = true) :
    step MState.ManipulationListening c (Ev.done u) =
      some (MState.LoopProcessingResponse,
        { c with lastResult := u, messages := c.messages ++ [⟨Role.user, notSureText⟩] }) ∧
    chatCompletionInput MState.LoopProcessingResponse
        { c with lastResult := u, messages := c.messages ++ [⟨Role.user, notSureText⟩] } =
      some (c.messages ++ [⟨Role.user, notSureText⟩]) := by
  constructor
  · simp [step, hy, hn]
  · rfl

/-- Witness for C6 at the utterance `no`. -/
theorem c6_negative_branch_witness :
    manipSaidYes "no" = false ∧ manipSaidNo "no" = true ∧
    (step MState.ManipulationListening initialContext (Ev.done "no") =
      some (MState.LoopProcessingResponse,
        { initialContext with
          lastResult := "no"
          messages := initialContext.messages ++ [⟨Role.user, notSureText⟩] }) ∧
    chatCompletionInput MState.LoopProcessingResponse
        { initialContext with
          lastResult := "no"
          messages := initialContext.messages ++ [⟨Role.user, notSureText⟩] } =
      some (initialContext.messages ++ [⟨Role.user, notSureText⟩])) :=
  ⟨by decide, by decide, c6_negative_branch initialContext "no" (by decide) (by decide)⟩

/-- C7 counterexample: when the closing `fhSpeak` invocation fails, `End`
moves to `Done` without appending the closing line, so the closing line is
not appended to `messages` regardless of success or failure. -/
theorem c7_counterexample :
    step MState.End initialContext Ev.err = some (MState.Done, initialContext) ∧
    initialContext.messages ≠
      initialContext.messages ++ [⟨Role.assistant, closingText⟩] := by
  constructor
  · rfl
  · intro h
    have := congrArg List.length h
    simp at this

/-- C7 amended: `End` speaks the fixed closing line and always reaches
`Done`; the line is appended as an assistant message on success, while on
failure the transition still reaches `Done` but appends nothing. -/
theorem c7_amended (c : DMContext) :
    speakInput MState.End c = some (closingText, false) ∧
    step MState.End c Ev.ok =
      some (MState.Done, { c with messages := c.messages ++ [⟨Role.assistant, closingText⟩] }) ∧
    step MState.End c Ev.err = some (MState.Done, c) :=
  ⟨rfl, rfl, rfl⟩

/-- C9 counterexample: the `onError` transition of `End` targets the
terminal `Done` state, so not every error transition targets a
non-terminal state. -/
theorem c9_counterexample :
    step MState.End initialContext Ev.err = some (MState.Done, initialContext) ∧
    isFinal MState.Done = true :=
  ⟨rfl, rfl⟩

/-- C9 amended: `Done` is entered only from `End` (on success or failure
of the closing speech); `End` is entered only by the affirmative branch of
`Manipulation.Listening`; and every `onError` transition from a state
other than `End` targets a non-terminal state. -/
theorem c9_amended (s : MState) (c : DMContext) (e : Ev) (s' : MState) (c' : DMContext)
    (h : step s c e = some (s', c')) :
    (s' = MState.Done → s = MState.End) ∧
    (s' = MState.End → s = MState.ManipulationListening ∧
      ∃ u, e = Ev.done u ∧ manipSaidYes u = true) ∧
    (e = Ev.err → s ≠ MState.End → s' ≠ MState.Done) := by
  cases s <;> cases e <;> simp only [step] at h <;>
    (try split at h) <;> (try split at h) <;> (try cases h) <;>
    refine ⟨?_, ?_, ?_⟩ <;> intros <;> simp_all

/-- Witness for C9 amended at the successful closing transition. -/
theorem c9_amended_witness :
    (MState.Done = MState.Done → MState.End = MState.End) ∧
    (MState.Done = MState.End → MState.End = MState.ManipulationListening ∧
      ∃ u, Ev.ok = Ev.done u ∧ manipSaidYes u = true) ∧
    (Ev.ok = Ev.err → MState.End ≠ MState.End → MState.Done ≠ MState.Done) :=
  c9_amended MState.End initialContext Ev.ok MState.Done
    { initialContext with
      messages := initialContext.messages ++ [⟨Role.assistant, closingText⟩] } rfl

/-- C10: the three manipulation question states and `Clarify` send their
templated texts to the voice service but leave the whole context —
`messages`, `lastResult`, `extractedPerson`, `isFirstMessage` — unchanged
on every transition out of them. -/
theorem c10_manipulation_speaking_frame (c : DMContext) (e : Ev) (s' : MState)
    (c' : DMContext) :
    speakInput MState.SpeakingWithPause_Condition1 c =
      some (pauseTemplate c.extractedPerson, false) ∧
    speakInput MState.SpeakingWithLaughter_Condition2 c =
      some (laughterTemplate c.extractedPerson, false) ∧
    speakInput MState.SpeakingWithBuffer_Condition3 c =
      some (bufferTemplate c.extractedPerson, false) ∧
    speakInput MState.Clarify c = some (clarifyText, false) ∧
    (step MState.SpeakingWithPause_Condition1 c e = some (s', c') → c' = c) ∧
    (step MState.SpeakingWithLaughter_Condition2 c e = some (s', c') → c' = c) ∧
    (step MState.SpeakingWithBuffer_Condition3 c e = some (s', c') → c' = c) ∧
    (step MState.Clarify c e = some (s', c') → c' = c) := by
  refine ⟨rfl, rfl, rfl, rfl, ?_, ?_, ?_, ?_⟩ <;>
    (intro h; cases e <;> simp only [step] at h <;> (try cases h) <;> rfl)

/-- Witness for C10 at the `Clarify` state with the initial context. -/
theorem c10_manipulation_speaking_frame_witness :
    speakInput MState.Clarify initialContext = some (clarifyText, false) ∧
    initialContext = initialContext :=
  ⟨(c10_manipulation_speaking_frame initialContext Ev.ok MState.ManipulationListening
      initialContext).2.2.2.1,
   (c10_manipulation_speaking_frame initialContext Ev.ok MState.ManipulationListening
      initialContext).2.2.2.2.2.2.2 rfl⟩

theorem detR_eq_buffer3_iff (x y : ℝ) :
    DetermineTheManipulationState x y = Condition.buffer3 ↔ x < 1 / 3 := by
  unfold DetermineTheManipulationState
  by_cases h1 : x < 1 / 3
  · rw [if_pos h1]
    exact iff_of_true rfl h1
  · rw [if_neg h1]
    by_cases h2 : y < 2 / 3
    · rw [if_pos h2]
      exact iff_of_false (by simp) h1
    · rw [if_neg h2]
      exact iff_of_false (by simp) h1

theorem detR_eq_laughter2_iff (x y : ℝ) :
    DetermineTheManipulationState x y = Condition.laughter2 ↔ ¬ x < 1 / 3 ∧ y < 2 / 3 := by
  unfold DetermineTheManipulationState
  by_cases h1 : x < 1 / 3
  · rw [if_pos h1]
    exact iff_of_false (by simp) (fun hc => hc.1 h1)
  · rw [if_neg h1]
    by_cases h2 : y < 2 / 3
    · rw [if_pos h2]
      exact iff_of_true rfl ⟨h1, h2⟩
    · rw [if_neg h2]
      exact iff_of_false (by simp) (fun hc => h2 hc.2)

theorem detR_eq_pause1_iff (x y : ℝ) :
    DetermineTheManipulationState x y = Condition.pause1 ↔ ¬ x < 1 / 3 ∧ ¬ y < 2 / 3 := by
  unfold DetermineTheManipulationState
  by_cases h1 : x < 1 / 3
  · rw [if_pos h1]
    exact iff_of_false (by simp) (fun hc => hc.1 h1)
  · rw [if_neg h1]
    by_cases h2 : y < 2 / 3
    · rw [if_pos h2]
      exact iff_of_false (by simp) (fun hc => hc.2 h2)
    · rw [if_neg h2]
      exact iff_of_true rfl ⟨h1, h2⟩

theorem volume_Ico_prod_Ico (a b u v : ℝ) :
    MeasureTheory.volume (Set.Ico a b ×ˢ Set.Ico u v) =
      ENNReal.ofReal (b - a) * ENNReal.ofReal (v - u) := by
  rw [MeasureTheory.Measure.volume_eq_prod, MeasureTheory.Measure.prod_prod, Real.volume_Ico,
    Real.volume_Ico]

/-- C2: the manipulation condition selector is the two-stage guard chain
(first draw below one third gives Condition 3; otherwise a second draw
below two thirds gives Condition 2, else Condition 1), and under uniform
draws on the unit square the conditions have probability 1/3, 4/9, 2/9. -/
theorem c2_manipulation_selector :
    (∀ r1 r2 : ℚ,
      (r1 < 1 / 3 → DetermineTheManipulationState r1 r2 = Condition.buffer3) ∧
      (¬ r1 < 1 / 3 → r2 < 2 / 3 → DetermineTheManipulationState r1 r2 = Condition.laughter2) ∧
      (¬ r1 < 1 / 3 → ¬ r2 < 2 / 3 → DetermineTheManipulationState r1 r2 = Condition.pause1)) ∧
    MeasureTheory.volume {p : ℝ × ℝ | (p.1 ∈ Set.Ico (0 : ℝ) 1 ∧ p.2 ∈ Set.Ico (0 : ℝ) 1) ∧
      DetermineTheManipulationState p.1 p.2 = Condition.buffer3} = ENNReal.ofReal (1 / 3) ∧
    MeasureTheory.volume {p : ℝ × ℝ | (p.1 ∈ Set.Ico (0 : ℝ) 1 ∧ p.2 ∈ Set.Ico (0 : ℝ) 1) ∧
      DetermineTheManipulationState p.1 p.2 = Condition.laughter2} = ENNReal.ofReal (4 / 9) ∧
    MeasureTheory.volume {p : ℝ × ℝ | (p.1 ∈ Set.Ico (0 : ℝ) 1 ∧ p.2 ∈ Set.Ico (0 : ℝ) 1) ∧
      DetermineTheManipulationState p.1 p.2 = Condition.pause1} = ENNReal.ofReal (2 / 9) := by
  refine ⟨?_, ?_, ?_, ?_⟩
  · intro r1 r2
    refine ⟨fun h1 => ?_, fun h1 h2 => ?_, fun h1 h2 => ?_⟩
    · unfold DetermineTheManipulationState
      rw [if_pos h1]
    · unfold DetermineTheManipulationState
      rw [if_neg h1, if_pos h2]
    · unfold DetermineTheManipulationState
      rw [if_neg h1, if_neg h2]
  · have hset : {p : ℝ × ℝ | (p.1 ∈ Set.Ico (0 : ℝ) 1 ∧ p.2 ∈ Set.Ico (0 : ℝ) 1) ∧
        DetermineTheManipulationState p.1 p.2 = Condition.buffer3} =
        Set.Ico (0 : ℝ) (1 / 3) ×ˢ Set.Ico (0 : ℝ) 1 := by
      ext ⟨x, y⟩
      simp only [Set.mem_setOf_eq, Set.mem_prod, Set.mem_Ico, detR_eq_buffer3_iff]
      constructor
      · rintro ⟨⟨⟨hx0, hx1⟩, hy⟩, hlt⟩
        exact ⟨⟨hx0, hlt⟩, hy⟩
      · rintro ⟨⟨hx0, hlt⟩, hy⟩
        exact ⟨⟨⟨hx0, by linarith⟩, hy⟩, hlt⟩
    rw [hset, volume_Ico_prod_Ico]
    rw [show (1 : ℝ) - 0 = 1 by norm_num, show (1 : ℝ) / 3 - 0 = 1 / 3 by norm_num,
      ENNReal.ofReal_one, mul_one]
  · have hset : {p : ℝ × ℝ | (p.1 ∈ Set.Ico (0 : ℝ) 1 ∧ p.2 ∈ Set.Ico (0 : ℝ) 1) ∧
        DetermineTheManipulationState p.1 p.2 = Condition.laughter2} =
        Set.Ico (1 / 3 : ℝ) 1 ×ˢ Set.Ico (0 : ℝ) (2 / 3) := by
      ext ⟨x, y⟩
      simp only [Set.mem_setOf_eq, Set.mem_prod, Set.mem_Ico, detR_eq_laughter2_iff, not_lt]
      constructor
      · rintro ⟨⟨⟨hx0, hx1⟩, ⟨hy0, hy1⟩⟩, hge, hlt⟩
        exact ⟨⟨hge, hx1⟩, hy0, hlt⟩
      · rintro ⟨⟨hge, hx1⟩, hy0, hlt⟩
        exact ⟨⟨⟨by linarith, hx1⟩, hy0, by linarith⟩, hge, hlt⟩
    rw [hset, volume_Ico_prod_Ico, ← ENNReal.ofReal_mul (by norm_num)]
    norm_num
  · have hset : {p : ℝ × ℝ | (p.1 ∈ Set.Ico (0 : ℝ) 1 ∧ p.2 ∈ Set.Ico (0 : ℝ) 1) ∧
        DetermineTheManipulationState p.1 p.2 = Condition.pause1} =
        Set.Ico (1 / 3 : ℝ) 1 ×ˢ Set.Ico (2 / 3 : ℝ) 1 := by
      ext ⟨x, y⟩
      simp only [Set.mem_setOf_eq, Set.mem_prod, Set.mem_Ico, detR_eq_pause1_iff, not_lt]
      constructor
      · rintro ⟨⟨⟨hx0, hx1⟩, ⟨hy0, hy1⟩⟩, hge1, hge2⟩
        exact ⟨⟨hge1, hx1⟩, hge2, hy1⟩
      · rintro ⟨⟨hge1, hx1⟩, hge2, hy1⟩
        exact ⟨⟨⟨by linarith, hx1⟩, by linarith, hy1⟩, hge1, hge2⟩
    rw [hset, volume_Ico_prod_Ico, ← ENNReal.ofReal_mul (by norm_num)]
    norm_num

/-- Witness for C2 with concrete first draw 1/4. -/
theorem c2_manipulation_selector_witness :
    DetermineTheManipulationState ((1 : ℚ) / 4) ((1 : ℚ) / 2) = Condition.buffer3 :=
  ((c2_manipulation_selector.1 ((1 : ℚ) / 4) ((1 : ℚ) / 2)).1) (by norm_num)

theorem mk_eq_iff (l : List Char) (s : String) : String.mk l = s ↔ l = s.data := by
  cases s with
  | mk d =>
    constructor
    · intro h
      injection h
    · intro h
      rw [h]

theorem manipSaidYes_iff (u : String) :
    manipSaidYes u = true ↔ ExactOrHasYes (normChars u) := by
  unfold manipSaidYes ExactOrHasYes
  simp only [Bool.or_eq_true, beq_iff_eq, mk_eq_iff, containsSub_iff_occursIn]
  tauto

theorem manipSaidNo_iff (u : String) :
    manipSaidNo u = true ↔ ExactOrHasNo (normChars u) := by
  unfold manipSaidNo ExactOrHasNo
  simp only [Bool.or_eq_true, beq_iff_eq, mk_eq_iff, containsSub_iff_occursIn]
  tauto

/-- C3 counterexample: the utterance `positive` is affirmative under the
claim (it lists the exact token `positive`), but the inline guard of
`Manipulation.Listening` does not recognise it, so the machine routes it
to `Clarify`, not to `End`. -/
theorem c3_counterexample :
    ClaimAffirmative (normChars "positive") ∧
    manipSaidYes "positive" = false ∧
    (step MState.ManipulationListening initialContext (Ev.done "positive")).map Prod.fst =
      some MState.Clarify ∧
    MState.Clarify ≠ MState.End :=
  ⟨Or.inr (Or.inr (Or.inl (by decide))), by decide, by decide, by decide⟩

/-- C3 amended: inside `Manipulation.Listening` an utterance is
affirmative (transition to `End`) iff its normalised form is exactly
`yes`, `yeah` or `yep` or contains the substring `yes` (the token
`positive` appears only in the unwired top-level `saidYes` guard);
otherwise negative (to `ProcessingResponse`) iff it is exactly `no` or
`nope` or contains `no`; otherwise it goes to `Clarify`.  The affirmative
check runs first. -/
theorem c3_amended (u : String) (c : DMContext) :
    (manipSaidYes u = true ↔ ExactOrHasYes (normChars u)) ∧
    (manipSaidNo u = true ↔ ExactOrHasNo (normChars u)) ∧
    (ExactOrHasYes (normChars u) →
      (step MState.ManipulationListening c (Ev.done u)).map Prod.fst = some MState.End) ∧
    (¬ ExactOrHasYes (normChars u) → ExactOrHasNo (normChars u) →
      (step MState.ManipulationListening c (Ev.done u)).map Prod.fst =
        some MState.LoopProcessingResponse) ∧
    (¬ ExactOrHasYes (normChars u) → ¬ ExactOrHasNo (normChars u) →
      (step MState.ManipulationListening c (Ev.done u)).map Prod.fst =
        some MState.Clarify) := by
  refine ⟨manipSaidYes_iff u, manipSaidNo_iff u, ?_, ?_, ?_⟩
  · intro h
    have hy : manipSaidYes u = true := (manipSaidYes_iff u).mpr h
    simp [step, hy]
  · intro h1 h2
    have hy : manipSaidYes u = false := by
      cases hb : manipSaidYes u
      · rfl
      · exact absurd ((manipSaidYes_iff u).mp hb) h1
    have hn : manipSaidNo u = true := (manipSaidNo_iff u).mpr h2
    simp [step, hy, hn]
  · intro h1 h2
    have hy : manipSaidYes u = false := by
      cases hb : manipSaidYes u
      · rfl
      · exact absurd ((manipSaidYes_iff u).mp hb) h1
    have hn : manipSaidNo u = false := by
      cases hb : manipSaidNo u
      · rfl
      · exact absurd ((manipSaidNo_iff u).mp hb) h2
    simp [step, hy, hn]

/-- Witness for C3 amended at the ordering quirk `yes, no`. -/
theorem c3_amended_witness :
    ExactOrHasYes (normChars "yes, no") ∧
    (step MState.ManipulationListening initialContext (Ev.done "yes, no")).map Prod.fst =
      some MState.End :=
  ⟨Or.inr (Or.inr (Or.inr ⟨[], ", no".data, by decide⟩)),
   (c3_amended "yes, no" initialContext).2.2.1
     (Or.inr (Or.inr (Or.inr ⟨[], ", no".data, by decide⟩)))⟩

/-- C4: the seeded history is exactly one system message followed by one
assistant message, and every transition only appends to `messages`, never
removing, reordering or mutating existing entries, and every appended
entry has role `user` or `assistant`, never `system`. -/
theorem c4_messages_append_only :
    initialContext.messages =
      [⟨Role.system, systemPromptText⟩, ⟨Role.assistant, greetingText⟩] ∧
    ∀ s c e s' c', step s c e = some (s', c') →
      ∃ tail, c'.messages = c.messages ++ tail ∧ ∀ m ∈ tail, m.role ≠ Role.system := by
  refine ⟨rfl, ?_⟩
  intro s c e s' c' h
  cases s <;> cases e <;> simp only [step] at h <;>
    (try split at h) <;> (try split at h) <;> (try cases h) <;>
    first
      | exact ⟨[], (List.append_nil _).symm, by simp⟩
      | (refine ⟨_, rfl, ?_⟩; simp)

/-- Witness for C4 at the completion-failure transition. -/
theorem c4_messages_append_only_witness :
    ∃ tail, ({ initialContext with
        messages := initialContext.messages ++ [⟨Role.assistant, fallbackText⟩] } :
        DMContext).messages = initialContext.messages ++ tail ∧
      ∀ m ∈ tail, m.role ≠ Role.system :=
  c4_messages_append_only.2 MState.LoopProcessingResponse initialContext Ev.err
    MState.LoopSpeaking _ rfl

theorem step_isFirstMessage_preserved (s : MState) (c : DMContext) (e : Ev) (s' : MState)
    (c' : DMContext) (h : step s c e = some (s', c'))
    (hne : ¬(s = MState.LoopSpeaking ∧ e = Ev.ok)) :
    c'.isFirstMessage = c.isFirstMessage := by
  cases s <;> cases e <;> simp only [step] at h <;>
    (try split at h) <;> (try split at h) <;> (try cases h) <;>
    first
      | rfl
      | exact absurd ⟨rfl, rfl⟩ hne

/-- C8: in every reachable configuration, `isFirstMessage` is true
exactly when no `Loop.Speaking` invocation has yet completed successfully;
it starts true, is cleared by the first successful `Speaking` completion
(not by a failed one), and stays false afterwards. -/
theorem c8_isFirstMessage (s : MState) (c : DMContext) (t : List (MState × Ev))
    (h : Reach s c t) :
    c.isFirstMessage = true ↔ (MState.LoopSpeaking, Ev.ok) ∉ t := by
  induction h with
  | init => simp [initialContext]
  | next hr hstep ih =>
    rename_i s1 c1 t1 e1 s2 c2
    by_cases hse : s1 = MState.LoopSpeaking ∧ e1 = Ev.ok
    · rcases hse with ⟨rfl, rfl⟩
      simp only [step, Option.some.injEq, Prod.mk.injEq] at hstep
      rcases hstep with ⟨rfl, hc2⟩
      rw [← hc2]
      constructor
      · intro hf
        simp at hf
      · intro hmem
        exact (hmem (by simp)).elim
    · have hf := step_isFirstMessage_preserved _ _ _ _ _ hstep hse
      rw [hf, ih]
      have hmemiff : (MState.LoopSpeaking, Ev.ok) ∈ t1 ++ [(s1, e1)] ↔
          (MState.LoopSpeaking, Ev.ok) ∈ t1 := by
        simp only [List.mem_append, List.mem_singleton]
        constructor
        · rintro (hm | hm)
          · exact hm
          · exfalso
            apply hse
            have h1 := congrArg Prod.fst hm
            have h2 := congrArg Prod.snd hm
            exact ⟨h1.symm, h2.symm⟩
        · intro hm
          exact Or.inl hm
      exact (not_congr hmemiff).symm

/-- Witness for C8 at the initial configuration. -/
theorem c8_isFirstMessage_witness :
    initialContext.isFirstMessage = true ↔
      (MState.LoopSpeaking, Ev.ok) ∉ ([] : List (MState × Ev)) :=
  c8_isFirstMessage MState.SetVoice initialContext [] Reach.init
